import Mathlib

/-!
Verification of the board-list ordering and consistency engine of
ExcaStoneBoard: the `cleanupFolders` normalization pass, the drag-and-drop
commit logic (`handleBoardDrop`, `handleFolderDrop`, `handleDragEnd`,
`calculateDropPosition`) from `src/components/BoardList.tsx`, the debounced
auto-save bridge from `ExcalidrawFrame`, the board-switch / export sequencing
from `App.tsx`, and the import pipeline (`buildImportBoards`,
`handleOpenImport`).

Machine integers do not occur in the modelled code; JS numbers used for
geometry are modelled as rationals, and indices/counters as `Nat`.
JS `Set` objects are modelled as `List String` used only through membership.
-/

namespace ExcaStone

/-- A board, as in `src/types/board.ts` (`Board`).  The drawing payload,
collaboration link and thumbnail are irrelevant to the list engine and
omitted; identity is `id`. -/
structure Board where
  id : String
  name : String
  created_at : String
  updated_at : String
  deriving DecidableEq, Repr

/-- `BoardListItem`: tagged union of a root board and a folder
(`src/unnamed/part_000`): a folder is `{type:'folder', id, name, items}` where
`items` is a flat list of boards. -/
inductive BoardListItem where
  | board (b : Board)
  | folder (id : String) (name : String) (items : List Board)
  deriving DecidableEq, Repr

/-- Ids of the boards an item mentions: a root board's own id, or the ids of a
folder's contained boards. -/
def itemBoardIds : BoardListItem → List String
  | .board b => [b.id]
  | .folder _ _ bs => bs.map Board.id

/-- All board ids across root items and folder contents, in order. -/
def allBoardIds (items : List BoardListItem) : List String :=
  (items.map itemBoardIds).flatten

@[simp]
theorem allBoardIds_nil : allBoardIds [] = [] := rfl

@[simp]
theorem allBoardIds_cons (i : BoardListItem) (l : List BoardListItem) :
    allBoardIds (i :: l) = itemBoardIds i ++ allBoardIds l := rfl

@[simp]
theorem allBoardIds_append (l₁ l₂ : List BoardListItem) :
    allBoardIds (l₁ ++ l₂) = allBoardIds l₁ ++ allBoardIds l₂ := by
  simp [allBoardIds]

/-- `cleanupFolders` from `BoardList.tsx` (lines 827-853), written with the
seen-id set as an explicit accumulator: root boards are dropped when their id
was already seen; a folder's contents are filtered to the not-yet-seen boards,
and the folder is dropped when nothing remains, replaced by its single
remaining board (promoted to root) when exactly one remains, and kept with the
filtered contents otherwise, all surviving ids being marked seen. -/
def cleanupFoldersAux (seen : List String) : List BoardListItem → List BoardListItem
  | [] => []
  | .board b :: rest =>
    if b.id ∈ seen then cleanupFoldersAux seen rest
    else .board b :: cleanupFoldersAux (b.id :: seen) rest
  | .folder fid fname bs :: rest =>
    match bs.filter (fun b => decide (b.id ∉ seen)) with
    | [] => cleanupFoldersAux seen rest
    | [b] => .board b :: cleanupFoldersAux (b.id :: seen) rest
    | b1 :: b2 :: tl =>
      .folder fid fname (b1 :: b2 :: tl) ::
        cleanupFoldersAux ((b1 :: b2 :: tl).map Board.id ++ seen) rest

/-- The normalization pass (`cleanupFolders` with an initially empty seen set). -/
def cleanupFolders (items : List BoardListItem) : List BoardListItem :=
  cleanupFoldersAux [] items

theorem cleanupFoldersAux_folder_empty {bs : List Board} {seen : List String}
    (fid fname : String) (rest : List BoardListItem)
    (h : bs.filter (fun b => decide (b.id ∉ seen)) = []) :
    cleanupFoldersAux seen (.folder fid fname bs :: rest) =
      cleanupFoldersAux seen rest := by
  rw [cleanupFoldersAux]; rw [h]

theorem cleanupFoldersAux_folder_one {bs : List Board} {seen : List String}
    {b : Board} (fid fname : String) (rest : List BoardListItem)
    (h : bs.filter (fun b => decide (b.id ∉ seen)) = [b]) :
    cleanupFoldersAux seen (.folder fid fname bs :: rest) =
      .board b :: cleanupFoldersAux (b.id :: seen) rest := by
  rw [cleanupFoldersAux]; rw [h]

theorem cleanupFoldersAux_folder_two {bs : List Board} {seen : List String}
    {b1 b2 : Board} {tl : List Board} (fid fname : String)
    (rest : List BoardListItem)
    (h : bs.filter (fun b => decide (b.id ∉ seen)) = b1 :: b2 :: tl) :
    cleanupFoldersAux seen (.folder fid fname bs :: rest) =
      .folder fid fname (b1 :: b2 :: tl) ::
        cleanupFoldersAux ((b1 :: b2 :: tl).map Board.id ++ seen) rest := by
  rw [cleanupFoldersAux]; rw [h]

/-- A folder's own contents carry pairwise-distinct board ids (trivially true
for root boards). -/
def itemNodup : BoardListItem → Prop
  | .board _ => True
  | .folder _ _ bs => (bs.map Board.id).Nodup

instance : DecidablePred itemNodup := fun i => by
  cases i <;> simp only [itemNodup] <;> infer_instance

theorem mem_map_id_filter_not_seen (bs : List Board) (seen : List String)
    (x : String) :
    x ∈ (bs.filter (fun b => decide (b.id ∉ seen))).map Board.id ↔
      x ∈ bs.map Board.id ∧ x ∉ seen := by
  simp only [List.mem_map, List.mem_filter, decide_eq_true_eq]
  constructor
  · rintro ⟨b, ⟨hb, hbs⟩, rfl⟩
    exact ⟨⟨b, hb, rfl⟩, hbs⟩
  · rintro ⟨⟨b, hb, rfl⟩, hbs⟩
    exact ⟨b, ⟨hb, hbs⟩, rfl⟩

theorem mem_allBoardIds_cleanupFoldersAux (l : List BoardListItem) :
    ∀ (seen : List String) (x : String),
      x ∈ allBoardIds (cleanupFoldersAux seen l) ↔
        x ∈ allBoardIds l ∧ x ∉ seen := by
  induction l with
  | nil => intro seen x; simp [cleanupFoldersAux]
  | cons item rest ih =>
    intro seen x
    cases item with
    | board b =>
      by_cases hb : b.id ∈ seen
      · rw [cleanupFoldersAux, if_pos hb, ih seen x]
        have hbr : x = b.id → x ∈ seen := fun h => h ▸ hb
        simp only [allBoardIds_cons, itemBoardIds, List.mem_append,
          List.mem_cons, List.mem_singleton, List.not_mem_nil, or_false]
        tauto
      · rw [cleanupFoldersAux, if_neg hb]
        have hbr : x = b.id → x ∉ seen := fun h => h ▸ hb
        simp only [allBoardIds_cons, itemBoardIds, List.mem_append,
          List.mem_cons, List.mem_singleton, List.not_mem_nil, or_false,
          ih (b.id :: seen) x]
        tauto
    | folder fid fname bs =>
      have hchar := mem_map_id_filter_not_seen bs seen
      rcases hf : bs.filter (fun b => decide (b.id ∉ seen)) with _ | ⟨b1, _ | ⟨b2, tl⟩⟩
      · rw [cleanupFoldersAux]; rw [hf, ih seen x]
        have hempty : x ∈ bs.map Board.id → x ∉ seen → False := by
          intro h1 h2
          have := (hchar x).mpr ⟨h1, h2⟩
          rw [hf] at this
          simp at this
        simp only [allBoardIds_cons, itemBoardIds, List.mem_append]
        tauto
      · rw [cleanupFoldersAux]; rw [hf]
        have hone : ∀ y, (y ∈ bs.map Board.id ∧ y ∉ seen) ↔ y = b1.id := by
          intro y
          rw [← hchar y, hf]
          simp
        have h1mem : x = b1.id → x ∈ bs.map Board.id :=
          fun h => (h ▸ ((hone b1.id).mpr rfl)).1
        have h1seen : x = b1.id → x ∉ seen :=
          fun h => (h ▸ ((hone b1.id).mpr rfl)).2
        have h1eq : x ∈ bs.map Board.id → x ∉ seen → x = b1.id :=
          fun ha hb' => (hone x).mp ⟨ha, hb'⟩
        simp only [allBoardIds_cons, itemBoardIds, List.mem_append,
          List.mem_cons, List.mem_singleton, List.not_mem_nil, or_false,
          ih (b1.id :: seen) x]
        tauto
      · rw [cleanupFoldersAux]; rw [hf]
        have hA : x ∈ (b1 :: b2 :: tl).map Board.id →
            x ∈ bs.map Board.id ∧ x ∉ seen := by
          intro h; rw [← hf] at h; exact (hchar x).mp h
        have hB : x ∈ bs.map Board.id → x ∉ seen →
            x ∈ (b1 :: b2 :: tl).map Board.id := by
          intro h1 h2; rw [← hf]; exact (hchar x).mpr ⟨h1, h2⟩
        simp only [allBoardIds_cons, itemBoardIds, List.mem_append,
          ih ((b1 :: b2 :: tl).map Board.id ++ seen) x]
        tauto

theorem not_seen_of_mem_cleanupFoldersAux {l : List BoardListItem}
    {seen : List String} {x : String}
    (h : x ∈ allBoardIds (cleanupFoldersAux seen l)) : x ∉ seen :=
  ((mem_allBoardIds_cleanupFoldersAux l seen x).mp h).2

theorem nodup_allBoardIds_cleanupFoldersAux (l : List BoardListItem) :
    ∀ seen : List String, (∀ i ∈ l, itemNodup i) →
      (allBoardIds (cleanupFoldersAux seen l)).Nodup := by
  induction l with
  | nil => intro seen _; simp [cleanupFoldersAux]
  | cons item rest ih =>
    intro seen hnd
    have hndrest : ∀ i ∈ rest, itemNodup i := fun i hi => hnd i (List.mem_cons_of_mem _ hi)
    cases item with
    | board b =>
      by_cases hb : b.id ∈ seen
      · rw [cleanupFoldersAux, if_pos hb]
        exact ih seen hndrest
      · rw [cleanupFoldersAux, if_neg hb]
        simp only [allBoardIds_cons, itemBoardIds, List.singleton_append,
          List.nodup_cons]
        refine ⟨fun hmem => ?_, ih (b.id :: seen) hndrest⟩
        exact (not_seen_of_mem_cleanupFoldersAux hmem) (List.mem_cons_self _ _)
    | folder fid fname bs =>
      rcases hf : bs.filter (fun b => decide (b.id ∉ seen)) with _ | ⟨b1, _ | ⟨b2, tl⟩⟩
      · rw [cleanupFoldersAux]; rw [hf]
        exact ih seen hndrest
      · rw [cleanupFoldersAux]; rw [hf]
        simp only [allBoardIds_cons, itemBoardIds, List.singleton_append,
          List.nodup_cons]
        refine ⟨fun hmem => ?_, ih (b1.id :: seen) hndrest⟩
        exact (not_seen_of_mem_cleanupFoldersAux hmem) (List.mem_cons_self _ _)
      · rw [cleanupFoldersAux]; rw [hf]
        simp only [allBoardIds_cons, itemBoardIds]
        rw [List.nodup_append]
        refine ⟨?_, ih _ hndrest, ?_⟩
        · have : ((bs.filter (fun b => decide (b.id ∉ seen))).map Board.id).Sublist
              (bs.map Board.id) :=
            (List.filter_sublist bs).map Board.id
          rw [hf] at this
          exact List.Nodup.sublist this (hnd _ (List.mem_cons_self _ _))
        · intro a ha hb
          have hb' := not_seen_of_mem_cleanupFoldersAux hb
          exact hb' (List.mem_append.mpr (Or.inl ha))

/-- Filtering twice with the same seen set changes nothing. -/
theorem filter_not_seen_idem (bs : List Board) (seen : List String) :
    (bs.filter (fun b => decide (b.id ∉ seen))).filter
        (fun b => decide (b.id ∉ seen)) =
      bs.filter (fun b => decide (b.id ∉ seen)) := by
  apply List.filter_eq_self.mpr
  intro b hb
  exact (List.mem_filter.mp hb).2

theorem cleanupFoldersAux_idem (l : List BoardListItem) :
    ∀ seen : List String,
      cleanupFoldersAux seen (cleanupFoldersAux seen l) =
        cleanupFoldersAux seen l := by
  induction l with
  | nil => intro seen; simp [cleanupFoldersAux]
  | cons item rest ih =>
    intro seen
    cases item with
    | board b =>
      by_cases hb : b.id ∈ seen
      · rw [cleanupFoldersAux, if_pos hb, ih seen]
      · rw [cleanupFoldersAux, if_neg hb]
        rw [cleanupFoldersAux, if_neg hb, ih (b.id :: seen)]
    | folder fid fname bs =>
      rcases hf : bs.filter (fun b => decide (b.id ∉ seen)) with _ | ⟨b1, _ | ⟨b2, tl⟩⟩
      · rw [cleanupFoldersAux_folder_empty fid fname rest hf, ih seen]
      · rw [cleanupFoldersAux_folder_one fid fname rest hf]
        have hb1 : b1.id ∉ seen := by
          have : b1 ∈ bs.filter (fun b => decide (b.id ∉ seen)) := by
            rw [hf]; exact List.mem_singleton.mpr rfl
          simpa using (List.mem_filter.mp this).2
        rw [cleanupFoldersAux, if_neg hb1, ih (b1.id :: seen)]
      · rw [cleanupFoldersAux_folder_two fid fname rest hf]
        have hff : (b1 :: b2 :: tl).filter (fun b => decide (b.id ∉ seen)) =
            b1 :: b2 :: tl := by
          conv_lhs => rw [← hf]
          rw [filter_not_seen_idem, hf]
        rw [cleanupFoldersAux_folder_two fid fname _ hff,
          ih ((b1 :: b2 :: tl).map Board.id ++ seen)]

theorem min_folder_size_cleanupFoldersAux (l : List BoardListItem) :
    ∀ (seen : List String) (fid fname : String) (bs : List Board),
      BoardListItem.folder fid fname bs ∈ cleanupFoldersAux seen l →
        2 ≤ bs.length := by
  induction l with
  | nil => intro seen fid fname bs h; simp [cleanupFoldersAux] at h
  | cons item rest ih =>
    intro seen fid fname bs h
    cases item with
    | board b =>
      by_cases hb : b.id ∈ seen
      · rw [cleanupFoldersAux, if_pos hb] at h
        exact ih seen fid fname bs h
      · rw [cleanupFoldersAux, if_neg hb] at h
        rcases List.mem_cons.mp h with h1 | h1
        · exact absurd h1 (by simp)
        · exact ih (b.id :: seen) fid fname bs h1
    | folder fid0 fname0 bs0 =>
      rcases hf : bs0.filter (fun b => decide (b.id ∉ seen)) with _ | ⟨b1, _ | ⟨b2, tl⟩⟩
      · rw [cleanupFoldersAux_folder_empty fid0 fname0 rest hf] at h
        exact ih seen fid fname bs h
      · rw [cleanupFoldersAux_folder_one fid0 fname0 rest hf] at h
        rcases List.mem_cons.mp h with h1 | h1
        · exact absurd h1 (by simp)
        · exact ih (b1.id :: seen) fid fname bs h1
      · rw [cleanupFoldersAux_folder_two fid0 fname0 rest hf] at h
        rcases List.mem_cons.mp h with h1 | h1
        · cases h1
          simp
        · exact ih ((b1 :: b2 :: tl).map Board.id ++ seen) fid fname bs h1

/-- A concrete board used in counterexamples and witnesses. -/
def mkBoard (i n : String) : Board :=
  { id := i, name := n, created_at := "", updated_at := "" }

/-- C1 counterexample input: a single folder that contains the same board
twice. -/
def dupFolderList : List BoardListItem :=
  [.folder "f" "F" [mkBoard "a" "A", mkBoard "a" "A"]]

/-- C1 (counterexample): on a list whose one folder contains the same board id
twice, `cleanupFolders` keeps both copies, so the resulting ids are not
pairwise distinct and the distinct-board count differs from the deduplicated
count — the claim fails exactly on "lists where the same board id occurs
twice inside one folder". -/
theorem cleanupFolders_unique_ids_cex :
    ¬ ((allBoardIds (cleanupFolders dupFolderList)).Nodup ∧
        (allBoardIds (cleanupFolders dupFolderList)).length =
          (allBoardIds dupFolderList).dedup.length) := by
  decide

/-- C1 (amended): provided every folder's contents carry pairwise-distinct
board ids (the within-folder duplicate case is excluded), every board id
appears exactly once across root boards and folder contents of
`cleanupFolders L`, and the total board count of the normalized list equals
the deduplicated board count of `L`. -/
theorem cleanupFolders_unique_ids (L : List BoardListItem)
    (h : ∀ i ∈ L, itemNodup i) :
    (allBoardIds (cleanupFolders L)).Nodup ∧
      (allBoardIds (cleanupFolders L)).length =
        (allBoardIds L).dedup.length := by
  have hnodup : (allBoardIds (cleanupFolders L)).Nodup :=
    nodup_allBoardIds_cleanupFoldersAux L [] h
  refine ⟨hnodup, ?_⟩
  have hset : (allBoardIds (cleanupFolders L)).toFinset =
      (allBoardIds L).toFinset := by
    ext x
    simp only [List.mem_toFinset]
    rw [cleanupFolders, mem_allBoardIds_cleanupFoldersAux L [] x]
    simp
  calc (allBoardIds (cleanupFolders L)).length
      = (allBoardIds (cleanupFolders L)).toFinset.card :=
        (List.toFinset_card_of_nodup hnodup).symm
    _ = (allBoardIds L).toFinset.card := by rw [hset]
    _ = (allBoardIds L).dedup.length := List.card_toFinset _

/-- C1 (witness): the amended theorem applied to a concrete list with a
duplicate root board and a two-board folder. -/
theorem cleanupFolders_unique_ids_witness :
    (∀ i ∈ [BoardListItem.board (mkBoard "x" "X"),
        .folder "g" "G" [mkBoard "x" "X2", mkBoard "y" "Y"]], itemNodup i) ∧
      ((allBoardIds (cleanupFolders [BoardListItem.board (mkBoard "x" "X"),
          .folder "g" "G" [mkBoard "x" "X2", mkBoard "y" "Y"]])).Nodup ∧
        (allBoardIds (cleanupFolders [BoardListItem.board (mkBoard "x" "X"),
            .folder "g" "G" [mkBoard "x" "X2", mkBoard "y" "Y"]])).length =
          (allBoardIds [BoardListItem.board (mkBoard "x" "X"),
            .folder "g" "G" [mkBoard "x" "X2", mkBoard "y" "Y"]]).dedup.length) :=
  ⟨by decide, cleanupFolders_unique_ids _ (by decide)⟩

/-- C2: the normalization pass is idempotent — normalizing an already
normalized list changes nothing, for every input list. -/
theorem cleanupFolders_idempotent (L : List BoardListItem) :
    cleanupFolders (cleanupFolders L) = cleanupFolders L :=
  cleanupFoldersAux_idem L []

/-- C3: every folder surviving `cleanupFolders` holds at least two boards:
folders whose filtered contents are empty are dropped, and folders with a
single remaining board are replaced by that board at root. -/
theorem cleanupFolders_min_folder_size (L : List BoardListItem)
    (fid fname : String) (bs : List Board)
    (h : BoardListItem.folder fid fname bs ∈ cleanupFolders L) :
    2 ≤ bs.length :=
  min_folder_size_cleanupFoldersAux L [] fid fname bs h

/-- C3 (witness): the theorem applied to a concrete folder that survives
normalization. -/
theorem cleanupFolders_min_folder_size_witness :
    (BoardListItem.folder "h" "H" [mkBoard "p" "P", mkBoard "q" "Q"] ∈
        cleanupFolders
          [BoardListItem.folder "h" "H" [mkBoard "p" "P", mkBoard "q" "Q"]]) ∧
      2 ≤ [mkBoard "p" "P", mkBoard "q" "Q"].length :=
  ⟨by decide,
    cleanupFolders_min_folder_size
      [BoardListItem.folder "h" "H" [mkBoard "p" "P", mkBoard "q" "Q"]]
      "h" "H" [mkBoard "p" "P", mkBoard "q" "Q"] (by decide)⟩

/-- Kind discriminant of a drag participant (`'board' | 'folder'`). -/
inductive ItemKind where
  | board
  | folder
  deriving DecidableEq, Repr

/-- `DropPosition` from `BoardList.tsx`. -/
inductive DropPosition where
  | before
  | after
  | inside
  deriving DecidableEq, Repr

/-- `calculateDropPosition` from `BoardList.tsx` (lines 881-909).  JS numbers
are modelled as rationals; `ratio = clamp((pointerY - top) / height, 0, 1)`.
The pointer ordinate handed in by `handleDragMove` (activator `clientY` plus
drag delta) is modelled as the opaque parameter `pointerY`. -/
def calculateDropPosition (pointerY top height : ℚ)
    (activeType overType : ItemKind) (isOverInFolder : Bool) : DropPosition :=
  let relativeY := pointerY - top
  let ratio := max 0 (min 1 (relativeY / height))
  if activeType = .folder then
    if ratio < 1/2 then .before else .after
  else if overType = .folder ∨ (isOverInFolder = false ∧ overType = .board) then
    if ratio < 3/10 then .before
    else if ratio > 7/10 then .after
    else .inside
  else
    if ratio < 1/2 then .before else .after

/-- Drop intent as worded by the spec: folders split before/after at the
midpoint; a board over a folder or over a root-level board not inside a
folder uses the 0.3 / 0.7 thresholds with `inside` in between; a board over a
board already inside a folder is restricted to before/after at the
midpoint. -/
def dropIntentSpec (pointerY top height : ℚ)
    (activeType overType : ItemKind) (isOverInFolder : Bool) : DropPosition :=
  let ratio := max 0 (min 1 ((pointerY - top) / height))
  if activeType = .folder then
    if ratio < 1/2 then .before else .after
  else if overType = .board ∧ isOverInFolder = true then
    if ratio < 1/2 then .before else .after
  else
    if ratio < 3/10 then .before
    else if ratio > 7/10 then .after
    else .inside

/-- C5: the drop-intent computation matches the spec's case analysis: with
`ratio = clamp((center.y - target.top)/target.height, 0, 1)`, a dragged
folder yields `before` iff `ratio < 0.5` and `after` otherwise; a dragged
board over a folder or over a root-level board not inside a folder yields
`before` iff `ratio < 0.3`, `after` iff `ratio > 0.7`, `inside` otherwise;
and a dragged board over a board already inside a folder is restricted to
`before` (`ratio < 0.5`) or `after`. -/
theorem calculateDropPosition_matches_spec (pointerY top height : ℚ)
    (activeType overType : ItemKind) (isOverInFolder : Bool) :
    calculateDropPosition pointerY top height activeType overType isOverInFolder =
      dropIntentSpec pointerY top height activeType overType isOverInFolder := by
  cases activeType <;> cases overType <;> cases isOverInFolder <;>
    simp [calculateDropPosition, dropIntentSpec]

/-- All boards in order, folder contents flattened in place
(`flattenedBoards` in `BoardList.tsx`, board component only). -/
def flattenedBoardList (items : List BoardListItem) : List Board :=
  (items.map fun item => match item with
    | .board b => [b]
    | .folder _ _ bs => bs).flatten

/-- `getBoardById`: first board with the given id in the flattened list. -/
def getBoardById (items : List BoardListItem) (boardId : String) : Option Board :=
  (flattenedBoardList items).find? fun b => decide (b.id = boardId)

/-- `getFolderById`: first folder item with the given id, as
`(id, name, contents)`. -/
def getFolderById (items : List BoardListItem) (folderId : String) :
    Option (String × String × List Board) :=
  items.findSome? fun item => match item with
    | .folder fid fn bs => if fid = folderId then some (fid, fn, bs) else none
    | .board _ => none

/-- `removeBoardFromItems` (`BoardList.tsx` lines 855-866): drop the board at
root, filter it out of every folder, and drop folders left empty. -/
def removeBoardFromItems (boardId : String) (sourceItems : List BoardListItem) :
    List BoardListItem :=
  sourceItems.filterMap fun item => match item with
    | .board b => if b.id = boardId then none else some (.board b)
    | .folder fid fn bs =>
      let remaining := bs.filter fun b => decide (b.id ≠ boardId)
      if remaining.length = 0 then none else some (.folder fid fn remaining)

/-- `removeFolderFromItems` (`BoardList.tsx` lines 868-870). -/
def removeFolderFromItems (folderId : String) (items : List BoardListItem) :
    List BoardListItem :=
  items.filter fun item => match item with
    | .folder fid _ _ => decide (fid ≠ folderId)
    | .board _ => true

/-- Insert `a` at position `n` (clamped to the end), as
`[...l.slice(0,n), a, ...l.slice(n)]`. -/
def insertAt {α : Type} (n : Nat) (a : α) (l : List α) : List α :=
  l.take n ++ a :: l.drop n

/-- The predicate of the `findIndex` call locating a root board by id. -/
def isRootBoardWithId (x : String) : BoardListItem → Bool
  | .board b => decide (b.id = x)
  | .folder _ _ _ => false

/-- The predicate of the `findIndex` call locating a folder by id. -/
def isFolderWithId (x : String) : BoardListItem → Bool
  | .folder fid _ _ => decide (fid = x)
  | .board _ => false

/-- The target-location loop of `handleBoardDrop` case 4 (`BoardList.tsx`
lines 1128-1142): first item that is the board itself (root index, no inner
index) or a folder containing it (root index plus inner index). -/
def findBoardPosition (overId : String) : List BoardListItem → Option (Nat × Option Nat)
  | [] => none
  | item :: rest =>
    match item with
    | .board b =>
      if b.id = overId then some (0, none)
      else (findBoardPosition overId rest).map fun p => (p.1 + 1, p.2)
    | .folder _ _ bs =>
      let idx := bs.findIdx fun b => decide (b.id = overId)
      if idx < bs.length then some (0, some idx)
      else (findBoardPosition overId rest).map fun p => (p.1 + 1, p.2)

/-- `stripBoardType` removes the root-only `type` tag; the Lean `Board`
carries no tag, so it is the identity. -/
def stripBoardType (b : Board) : Board := b

/-- `handleBoardDrop` (`BoardList.tsx` lines 1051-1167).  `newFolderId`
stands for the random id produced by `generateFolderId()`.  `none` means the
handler returned without committing an update. -/
def handleBoardDrop (items : List BoardListItem) (boardId : String)
    (overType : ItemKind) (overId : String) (isOverInFolder : Bool)
    (dropPosition : DropPosition) (newFolderId : String) :
    Option (List BoardListItem) :=
  match getBoardById items boardId with
  | none => none
  | some sourceBoard =>
    -- Case 1: dropping a board INSIDE a folder
    if overType = .folder ∧ dropPosition = .inside then
      match getFolderById items overId with
      | none => none
      | some _ =>
        let n1 := removeBoardFromItems boardId items
        let n2 := n1.map fun item => match item with
          | .folder fid fn bs =>
            if fid = overId then .folder fid fn (bs ++ [stripBoardType sourceBoard])
            else .folder fid fn bs
          | x => x
        some (cleanupFolders n2)
    -- Case 2: dropping a board ON a root board to create a folder
    else if overType = .board ∧ dropPosition = .inside ∧ isOverInFolder = false then
      match getBoardById items overId with
      | none => none
      | some targetBoard =>
        if targetBoard.id = boardId then none
        else
          let targetIndex := items.findIdx (isRootBoardWithId overId)
          if targetIndex = items.length then none
          else
            let n1 := removeBoardFromItems boardId items
            let n2 := removeBoardFromItems overId n1
            let newFolder : BoardListItem :=
              .folder newFolderId targetBoard.name
                [stripBoardType targetBoard, stripBoardType sourceBoard]
            let insertIndex := min targetIndex n2.length
            some (cleanupFolders (insertAt insertIndex newFolder n2))
    -- Case 3: dropping a board before/after a folder
    else if overType = .folder ∧ (dropPosition = .before ∨ dropPosition = .after) then
      let n1 := removeBoardFromItems boardId items
      let targetIndex := n1.findIdx (isFolderWithId overId)
      if targetIndex = n1.length then none
      else
        let insertIndex := if dropPosition = .after then targetIndex + 1 else targetIndex
        some (cleanupFolders (insertAt insertIndex (.board sourceBoard) n1))
    -- Case 4: dropping a board before/after another board
    else if overType = .board then
      let n1 := removeBoardFromItems boardId items
      match findBoardPosition overId n1 with
      | none => none
      | some (ri, some fi) =>
        match n1[ri]? with
        | some (.folder fid fn bs) =>
          let insertIdx := if dropPosition = .after then fi + 1 else fi
          some (cleanupFolders
            (n1.set ri (.folder fid fn (insertAt insertIdx (stripBoardType sourceBoard) bs))))
        | _ => none
      | some (ri, none) =>
        let insertIdx := if dropPosition = .after then ri + 1 else ri
        some (cleanupFolders (insertAt insertIdx (.board sourceBoard) n1))
    else none

/-- `handleFolderDrop` (`BoardList.tsx` lines 1015-1049).  The JS fallback of
`findIndex === -1` to `newItems.length` is built into `List.findIdx`. -/
def handleFolderDrop (items : List BoardListItem) (folderId : String)
    (overType : ItemKind) (overId : String) (isOverInFolder : Bool)
    (parentFolderId : Option String) (dropPosition : DropPosition) :
    Option (List BoardListItem) :=
  let target : String × Bool :=
    match isOverInFolder, parentFolderId with
    | true, some pid => if pid = "" then (overId, true) else (pid, true)
    | true, none => (overId, true)
    | false, _ => (overId, decide (overType = .folder))
  if target.2 = true ∧ target.1 = folderId then none
  else
    match getFolderById items folderId with
    | none => none
    | some (fid, fn, bs) =>
      let n1 := removeFolderFromItems folderId items
      let targetIndex := n1.findIdx fun item =>
        if target.2 then isFolderWithId target.1 item else isRootBoardWithId target.1 item
      let insertIndex := if dropPosition = .before then targetIndex else targetIndex + 1
      some (cleanupFolders (insertAt insertIndex (.folder fid fn bs) n1))

/-- `parseDragId`: drag ids of folders carry a `folder:` prefix. -/
def parseDragId (raw : String) : ItemKind × String :=
  if raw.startsWith "folder:" then (.folder, raw.drop 7) else (.board, raw)

/-- `handleDragEnd` (`BoardList.tsx` lines 984-1013): `over` is the hovered
droppable (`(raw id, inFolder flag, parent folder id)`), `savedDropPosition`
is the drop intent captured in the drag state before it is cleared.  The
guard discards the commit when no target exists or the target is the dragged
item itself; a missing recorded intent falls back to `after`. -/
def handleDragEnd (items : List BoardListItem) (activeId : String)
    (over : Option (String × Bool × Option String))
    (savedDropPosition : Option DropPosition) (newFolderId : String) :
    Option (List BoardListItem) :=
  match over with
  | none => none
  | some (overRaw, isOverInFolder, parentFolderId) =>
    if activeId = overRaw then none
    else
      let a := parseDragId activeId
      let o := parseDragId overRaw
      let pos := savedDropPosition.getD .after
      match a.1 with
      | .folder => handleFolderDrop items a.2 o.1 o.2 isOverInFolder parentFolderId pos
      | .board => handleBoardDrop items a.2 o.1 o.2 isOverInFolder pos newFolderId

/-- C10: when a hovered target exists and differs from the dragged item but
no drop intent was recorded (`dropPosition` is `null`), the drag-end commit
is not discarded: it behaves exactly as a commit with intent `after`. -/
theorem handleDragEnd_null_intent_defaults_to_after
    (items : List BoardListItem) (activeId overRaw : String)
    (isOverInFolder : Bool) (parentFolderId : Option String)
    (newFolderId : String) (hne : activeId ≠ overRaw) :
    handleDragEnd items activeId (some (overRaw, isOverInFolder, parentFolderId))
        none newFolderId =
      handleDragEnd items activeId (some (overRaw, isOverInFolder, parentFolderId))
        (some .after) newFolderId := by
  simp [handleDragEnd, hne]

/-- C10 (witness): a concrete drag of board `a` over board `b` with no
recorded intent commits, and produces the same index as an explicit `after`
drop (board `a` moved behind board `b`). -/
theorem handleDragEnd_null_intent_witness :
    ("a" ≠ "b") ∧
      handleDragEnd [BoardListItem.board (mkBoard "a" "A"),
          .board (mkBoard "b" "B")] "a" (some ("b", false, none)) none "nf" =
        handleDragEnd [BoardListItem.board (mkBoard "a" "A"),
          .board (mkBoard "b" "B")] "a" (some ("b", false, none))
          (some .after) "nf" ∧
      handleDragEnd [BoardListItem.board (mkBoard "a" "A"),
          .board (mkBoard "b" "B")] "a" (some ("b", false, none)) none "nf" =
        some [.board (mkBoard "b" "B"), .board (mkBoard "a" "A")] :=
  ⟨by decide,
    handleDragEnd_null_intent_defaults_to_after _ "a" "b" false none "nf"
      (by decide),
    by decide⟩

/-- Promote single-board folders to root boards, leave everything else
unchanged: the effect of `cleanupFolders` on well-formed lists. -/
def promoteSingletons : List BoardListItem → List BoardListItem :=
  List.map fun item => match item with
    | .folder _ _ [b] => .board b
    | x => x

/-- Items that are not empty folders. -/
def noEmptyFolder : BoardListItem → Prop
  | .board _ => True
  | .folder _ _ bs => bs ≠ []

theorem itemBoardIds_promote (item : BoardListItem) :
    itemBoardIds ((fun item => match item with
      | BoardListItem.folder _ _ [b] => BoardListItem.board b
      | x => x) item) = itemBoardIds item := by
  rcases item with b | ⟨fid, fname, _ | ⟨b1, _ | ⟨b2, tl⟩⟩⟩ <;> rfl

theorem mem_allBoardIds_of_mem {l : List BoardListItem} {i : BoardListItem}
    {y : String} (hi : i ∈ l) (hy : y ∈ itemBoardIds i) :
    y ∈ allBoardIds l := by
  rw [allBoardIds, List.mem_flatten]
  exact ⟨itemBoardIds i, List.mem_map_of_mem itemBoardIds hi, hy⟩

theorem removeBoardFromItems_cons_board (x : String) (b : Board)
    (rest : List BoardListItem) :
    removeBoardFromItems x (.board b :: rest) =
      if b.id = x then removeBoardFromItems x rest
      else .board b :: removeBoardFromItems x rest := by
  simp only [removeBoardFromItems, List.filterMap_cons]
  by_cases h : b.id = x
  · rw [if_pos h, if_pos h]
  · rw [if_neg h, if_neg h]

theorem removeBoardFromItems_cons_folder (x fid fn : String) (bs : List Board)
    (rest : List BoardListItem) :
    removeBoardFromItems x (.folder fid fn bs :: rest) =
      if (bs.filter fun b => decide (b.id ≠ x)).length = 0 then
        removeBoardFromItems x rest
      else .folder fid fn (bs.filter fun b => decide (b.id ≠ x)) ::
        removeBoardFromItems x rest := by
  simp only [removeBoardFromItems, List.filterMap_cons]
  by_cases h : (bs.filter fun b => decide (b.id ≠ x)).length = 0
  · rw [if_pos h, if_pos h]
  · rw [if_neg h, if_neg h]

theorem allBoardIds_removeBoardFromItems (x : String) (l : List BoardListItem) :
    allBoardIds (removeBoardFromItems x l) =
      (allBoardIds l).filter (fun s => decide (s ≠ x)) := by
  induction l with
  | nil => rfl
  | cons item rest ih =>
    cases item with
    | board b =>
      rw [removeBoardFromItems_cons_board]
      by_cases hb : b.id = x
      · rw [if_pos hb, ih, allBoardIds_cons]
        simp [itemBoardIds, hb, List.filter_append]
      · rw [if_neg hb, allBoardIds_cons, allBoardIds_cons, ih]
        simp [itemBoardIds, List.filter_append, hb]
    | folder fid fn bs =>
      have hmap : (bs.filter fun b => decide (b.id ≠ x)).map Board.id =
          (bs.map Board.id).filter (fun s => decide (s ≠ x)) := by
        rw [List.filter_map]
        rfl
      rw [removeBoardFromItems_cons_folder]
      by_cases hrem : (bs.filter fun b => decide (b.id ≠ x)).length = 0
      · rw [if_pos hrem, ih, allBoardIds_cons]
        simp only [itemBoardIds, List.filter_append]
        rw [← hmap]
        rw [List.length_eq_zero] at hrem
        rw [hrem]
        rfl
      · rw [if_neg hrem, allBoardIds_cons, allBoardIds_cons, ih]
        simp only [itemBoardIds, List.filter_append]
        rw [hmap]

theorem noEmptyFolder_removeBoardFromItems (x : String)
    (l : List BoardListItem) :
    ∀ i ∈ removeBoardFromItems x l, noEmptyFolder i := by
  intro i hi
  rw [removeBoardFromItems, List.mem_filterMap] at hi
  obtain ⟨a, _, ha⟩ := hi
  cases a with
  | board b =>
    simp only at ha
    by_cases hb : b.id = x
    · rw [if_pos hb] at ha; cases ha
    · rw [if_neg hb] at ha
      cases ha
      trivial
  | folder fid fn bs =>
    simp only at ha
    by_cases hrem : (bs.filter fun b => decide (b.id ≠ x)).length = 0
    · rw [if_pos hrem] at ha; cases ha
    · rw [if_neg hrem] at ha
      cases ha
      exact fun hnil => hrem (by rw [hnil]; rfl)

theorem map_id_flattenedBoardList (l : List BoardListItem) :
    (flattenedBoardList l).map Board.id = allBoardIds l := by
  induction l with
  | nil => rfl
  | cons item rest ih =>
    cases item with
    | board b =>
      simp only [flattenedBoardList, List.map_cons, List.flatten_cons] at *
      rw [List.map_append, ih]
      rfl
    | folder fid fn bs =>
      simp only [flattenedBoardList, List.map_cons, List.flatten_cons] at *
      rw [List.map_append, ih]
      rfl

theorem mem_flattenedBoardList_of_root {l : List BoardListItem} {b : Board}
    (h : BoardListItem.board b ∈ l) : b ∈ flattenedBoardList l := by
  induction l with
  | nil => cases h
  | cons item rest ih =>
    rcases List.mem_cons.mp h with h1 | h1
    · subst h1
      simp [flattenedBoardList]
    · cases item <;>
        simp only [flattenedBoardList, List.map_cons, List.flatten_cons,
          List.mem_append] <;>
        exact Or.inr (by simpa [flattenedBoardList] using ih h1)

theorem find?_board_of_nodup :
    ∀ (l : List Board) (b : Board) (x : String),
      (l.map Board.id).Nodup → b ∈ l → b.id = x →
        l.find? (fun c => decide (c.id = x)) = some b := by
  intro l
  induction l with
  | nil => intro b x _ hb _; cases hb
  | cons c rest ih =>
    intro b x hnd hb hbx
    rcases List.mem_cons.mp hb with h1 | h1
    · subst h1
      rw [List.find?_cons_of_pos _ (by simpa using hbx)]
    · by_cases hc : c.id = x
      · exfalso
        rw [List.map_cons, List.nodup_cons] at hnd
        exact hnd.1 (hc.trans hbx.symm ▸ List.mem_map_of_mem Board.id h1)
      · rw [List.find?_cons_of_neg _ (by simpa using hc)]
        rw [List.map_cons, List.nodup_cons] at hnd
        exact ih b x hnd.2 h1 hbx

/-- Under globally unique board ids, `getBoardById` finds exactly the root
board with the requested id. -/
theorem getBoardById_of_root_nodup {items : List BoardListItem} {tb : Board}
    {x : String} (hnd : (allBoardIds items).Nodup)
    (hmem : BoardListItem.board tb ∈ items) (hid : tb.id = x) :
    getBoardById items x = some tb := by
  rw [getBoardById]
  apply find?_board_of_nodup
  · rw [map_id_flattenedBoardList]; exact hnd
  · exact mem_flattenedBoardList_of_root hmem
  · exact hid

theorem getBoardById_id {items : List BoardListItem} {x : String} {b : Board}
    (h : getBoardById items x = some b) : b.id = x := by
  have := List.find?_some h
  simpa using this

theorem promoteSingletons_cons_board (b : Board) (l : List BoardListItem) :
    promoteSingletons (.board b :: l) = .board b :: promoteSingletons l := rfl

theorem promoteSingletons_cons_folder_one (fid fn : String) (b : Board)
    (l : List BoardListItem) :
    promoteSingletons (.folder fid fn [b] :: l) =
      .board b :: promoteSingletons l := rfl

theorem promoteSingletons_cons_folder_big (fid fn : String) (b1 b2 : Board)
    (tl : List Board) (l : List BoardListItem) :
    promoteSingletons (.folder fid fn (b1 :: b2 :: tl) :: l) =
      .folder fid fn (b1 :: b2 :: tl) :: promoteSingletons l := rfl

/-- On a candidate list with globally unique board ids (none of which were
seen yet) and no empty folders, the cleanup pass only promotes single-board
folders, keeping every position. -/
theorem cleanupFoldersAux_eq_promote (l : List BoardListItem) :
    ∀ seen : List String,
      (allBoardIds l).Nodup →
      (∀ x ∈ allBoardIds l, x ∉ seen) →
      (∀ i ∈ l, noEmptyFolder i) →
      cleanupFoldersAux seen l = promoteSingletons l := by
  induction l with
  | nil => intro seen _ _ _; rfl
  | cons item rest ih =>
    intro seen hnd hdisj hne
    have hnerest : ∀ i ∈ rest, noEmptyFolder i :=
      fun i hi => hne i (List.mem_cons_of_mem _ hi)
    cases item with
    | board b =>
      have hmemb : b.id ∈ allBoardIds (BoardListItem.board b :: rest) := by
        simp [itemBoardIds]
      have hb : b.id ∉ seen := hdisj b.id hmemb
      rw [cleanupFoldersAux, if_neg hb, promoteSingletons_cons_board]
      congr 1
      rw [allBoardIds_cons] at hnd
      simp only [itemBoardIds, List.singleton_append, List.nodup_cons] at hnd
      apply ih (b.id :: seen) hnd.2
      · intro x hx
        simp only [List.mem_cons]
        rintro (rfl | hxs)
        · exact hnd.1 hx
        · exact hdisj x (by simp [itemBoardIds, hx]) hxs
      · exact hnerest
    | folder fid fname bs =>
      have hbs : ∀ b ∈ bs, b.id ∉ seen := by
        intro b hb
        exact hdisj b.id (by
          simp only [allBoardIds_cons, itemBoardIds, List.mem_append]
          exact Or.inl (List.mem_map_of_mem Board.id hb))
      have hfilt : bs.filter (fun b => decide (b.id ∉ seen)) = bs :=
        List.filter_eq_self.mpr (fun b hb => by simpa using hbs b hb)
      rw [allBoardIds_cons] at hnd
      simp only [itemBoardIds] at hnd
      rw [List.nodup_append] at hnd
      obtain ⟨hndbs, hndrest, hdisjbr⟩ := hnd
      cases bs with
      | nil => exact absurd rfl (hne _ (List.mem_cons_self _ _))
      | cons b bs' =>
        cases bs' with
        | nil =>
          rw [cleanupFoldersAux_folder_one fid fname rest hfilt,
            promoteSingletons_cons_folder_one]
          congr 1
          apply ih (b.id :: seen) hndrest
          · intro x hx
            simp only [List.mem_cons]
            rintro (rfl | hxs)
            · exact hdisjbr (by simp) hx
            · exact hdisj x (by
                simp only [allBoardIds_cons, itemBoardIds, List.mem_append]
                exact Or.inr hx) hxs
          · exact hnerest
        | cons b2 tl =>
          rw [cleanupFoldersAux_folder_two fid fname rest hfilt,
            promoteSingletons_cons_folder_big]
          congr 1
          apply ih _ hndrest
          · intro x hx
            rw [List.mem_append]
            rintro (hxs | hxs)
            · exact hdisjbr hxs hx
            · exact hdisj x (by
                simp only [allBoardIds_cons, itemBoardIds, List.mem_append]
                exact Or.inr hx) hxs
          · exact hnerest

theorem mem_of_getElem?_eq_some {α : Type} {l : List α} {n : Nat} {a : α}
    (h : l[n]? = some a) : a ∈ l := by
  obtain ⟨hlt, rfl⟩ := List.getElem?_eq_some.mp h
  exact List.getElem_mem hlt

/-- C4 (amended): dropping board `D` with intent `inside` onto a root board
`T` (distinct ids, globally unique ids) commits an index in which a single
new folder named after `T` holds exactly `[T, D]`, every other item mentions
neither id, and the folder sits at index `min i r` where `i` is `T`'s index
in the original sequence and `r` the length of the sequence after removing
both boards (the code inserts at the original index clamped to the shortened
list, without re-adjusting for the removals). -/
theorem handleBoardDrop_root_merge (items : List BoardListItem)
    (boardId overId newFolderId : String) (tb db : Board)
    (hnd : (allBoardIds items).Nodup)
    (hT : BoardListItem.board tb ∈ items) (hTid : tb.id = overId)
    (hD : getBoardById items boardId = some db)
    (hne : boardId ≠ overId) :
    ∃ out,
      handleBoardDrop items boardId .board overId false .inside newFolderId =
          some out ∧
        out[min (items.findIdx (isRootBoardWithId overId))
            ((removeBoardFromItems overId
              (removeBoardFromItems boardId items)).length)]? =
          some (.folder newFolderId tb.name [tb, db]) ∧
        ∀ (j : Nat) (it : BoardListItem),
          j ≠ min (items.findIdx (isRootBoardWithId overId))
            ((removeBoardFromItems overId
              (removeBoardFromItems boardId items)).length) →
          out[j]? = some it →
          boardId ∉ itemBoardIds it ∧ overId ∉ itemBoardIds it := by
  have htb : getBoardById items overId = some tb :=
    getBoardById_of_root_nodup hnd hT hTid
  have hdbid : db.id = boardId := getBoardById_id hD
  have htbne : ¬ tb.id = boardId := fun h => hne ((h ▸ hTid).symm ▸ rfl)
  have hti_lt : items.findIdx (isRootBoardWithId overId) < items.length :=
    List.findIdx_lt_length_of_exists
      ⟨.board tb, hT, by simp [isRootBoardWithId, hTid]⟩
  have htine : ¬ items.findIdx (isRootBoardWithId overId) = items.length :=
    Nat.ne_of_lt hti_lt
  have heval : handleBoardDrop items boardId .board overId false .inside
      newFolderId = some (cleanupFolders (insertAt
        (min (items.findIdx (isRootBoardWithId overId))
          ((removeBoardFromItems overId
            (removeBoardFromItems boardId items)).length))
        (.folder newFolderId tb.name [tb, db])
        (removeBoardFromItems overId (removeBoardFromItems boardId items)))) := by
    simp [handleBoardDrop, hD, htb, stripBoardType, htbne, htine]
  set ti := items.findIdx (isRootBoardWithId overId) with hti
  set n1 := removeBoardFromItems boardId items with hn1
  set n2 := removeBoardFromItems overId n1 with hn2
  set F : BoardListItem := .folder newFolderId tb.name [tb, db] with hF
  set p := min ti n2.length with hp
  -- facts about the intermediate list n2
  have hids2 : allBoardIds n2 =
      ((allBoardIds items).filter (fun s => decide (s ≠ boardId))).filter
        (fun s => decide (s ≠ overId)) := by
    rw [hn2, hn1, allBoardIds_removeBoardFromItems,
      allBoardIds_removeBoardFromItems]
  have hnd2 : (allBoardIds n2).Nodup := by
    rw [hids2]; exact (hnd.filter _).filter _
  have hnob : boardId ∉ allBoardIds n2 := by
    rw [hids2]
    intro h
    have h1 := (List.mem_filter.mp h).1
    have h2 := (List.mem_filter.mp h1).2
    simp at h2
  have hnoo : overId ∉ allBoardIds n2 := by
    rw [hids2]
    intro h
    have h2 := (List.mem_filter.mp h).2
    simp at h2
  have hne2 : ∀ i ∈ n2, noEmptyFolder i :=
    noEmptyFolder_removeBoardFromItems overId n1
  -- the committed candidate list
  have hperm : List.Perm (allBoardIds (insertAt p F n2))
      (tb.id :: db.id :: allBoardIds n2) := by
    rw [insertAt, allBoardIds_append, allBoardIds_cons]
    have h1 : allBoardIds (n2.take p) ++
        (itemBoardIds F ++ allBoardIds (n2.drop p)) =
        allBoardIds (n2.take p) ++
          (tb.id :: db.id :: allBoardIds (n2.drop p)) := by
      rw [hF]; rfl
    rw [h1]
    have hstep1 : List.Perm
        (allBoardIds (n2.take p) ++ (tb.id :: db.id :: allBoardIds (n2.drop p)))
        (tb.id :: (allBoardIds (n2.take p) ++
          (db.id :: allBoardIds (n2.drop p)))) := List.perm_middle
    have hstep2 : List.Perm
        (allBoardIds (n2.take p) ++ (db.id :: allBoardIds (n2.drop p)))
        (db.id :: (allBoardIds (n2.take p) ++ allBoardIds (n2.drop p))) :=
      List.perm_middle
    have := hstep1.trans (hstep2.cons tb.id)
    rw [← allBoardIds_append, List.take_append_drop] at this
    exact this
  have hnd' : (allBoardIds (insertAt p F n2)).Nodup := by
    rw [hperm.nodup_iff]
    refine List.nodup_cons.mpr ⟨?_, List.nodup_cons.mpr ⟨?_, hnd2⟩⟩
    · rw [List.mem_cons, hTid, hdbid]
      rintro (h | h)
      · exact hne h.symm
      · exact hnoo h
    · rw [hdbid]; exact hnob
  have hnef : ∀ i ∈ insertAt p F n2, noEmptyFolder i := by
    intro i hi
    rw [insertAt, List.mem_append, List.mem_cons] at hi
    rcases hi with hi | hi | hi
    · exact hne2 i (List.mem_of_mem_take hi)
    · subst hi; rw [hF]; exact List.cons_ne_nil _ _
    · exact hne2 i (List.mem_of_mem_drop hi)
  have hout : cleanupFolders (insertAt p F n2) =
      promoteSingletons (insertAt p F n2) :=
    cleanupFoldersAux_eq_promote _ [] hnd' (by simp) hnef
  refine ⟨cleanupFolders (insertAt p F n2), heval, ?_, ?_⟩
  · -- the synthesized folder sits at index p
    have hlenA : (n2.take p).length = p := by
      rw [List.length_take]
      exact min_eq_left (min_le_right _ _)
    rw [hout, promoteSingletons, List.getElem?_map, insertAt,
      List.getElem?_append_right (le_of_eq hlenA), hlenA, Nat.sub_self,
      List.getElem?_cons_zero]
    rw [hF]
    rfl
  · intro j it hj hit
    rw [hout, promoteSingletons, List.getElem?_map] at hit
    cases hL : (insertAt p F n2)[j]? with
    | none => rw [hL] at hit; cases hit
    | some it' =>
      rw [hL] at hit
      have hit' : it = (fun item => match item with
          | BoardListItem.folder _ _ [b] => BoardListItem.board b
          | x => x) it' := (Option.some_inj.mp hit).symm
      have hmem2 : it' ∈ n2 := by
        have hlenA : (n2.take p).length = p := by
          rw [List.length_take]
          exact min_eq_left (min_le_right _ _)
        rcases Nat.lt_trichotomy j p with hlt | heq | hgt
        · rw [insertAt, List.getElem?_append_left (by rw [hlenA]; exact hlt),
            List.getElem?_take_of_lt hlt] at hL
          exact mem_of_getElem?_eq_some hL
        · exact absurd heq hj
        · rw [insertAt,
            List.getElem?_append_right (by rw [hlenA]; exact Nat.le_of_lt hgt),
            hlenA] at hL
          obtain ⟨k, hk⟩ := Nat.exists_eq_add_of_lt hgt
          have hjk : j - p = k + 1 := by omega
          rw [hjk, List.getElem?_cons_succ] at hL
          exact List.mem_of_mem_drop (mem_of_getElem?_eq_some hL)
      have hids : itemBoardIds it = itemBoardIds it' := by
        rw [hit']; exact itemBoardIds_promote it'
      constructor
      · rw [hids]
        intro hmem
        exact hnob (mem_allBoardIds_of_mem hmem2 hmem)
      · rw [hids]
        intro hmem
        exact hnoo (mem_allBoardIds_of_mem hmem2 hmem)

/-- C4 counterexample input: dragged board `d` sits at root before target
board `t`, which is the last root item. -/
def cexDropItems : List BoardListItem :=
  [.board (mkBoard "a" "A"), .board (mkBoard "d" "D"), .board (mkBoard "t" "T")]

/-- C4 (counterexample): with root sequence `[a, d, t]`, dropping `d`
`inside` `t` yields `[a, folder[t,d]]` — the synthesized folder sits at index
1, not at `t`'s former position 2: the code computes the target index before
removing the two boards and then clamps it to the shortened list. -/
theorem handleBoardDrop_root_merge_cex :
    List.findIdx (isRootBoardWithId "t") cexDropItems = 2 ∧
      handleBoardDrop cexDropItems "d" .board "t" false .inside "nf" =
        some [.board (mkBoard "a" "A"),
          .folder "nf" "T" [mkBoard "t" "T", mkBoard "d" "D"]] ∧
      (([BoardListItem.board (mkBoard "a" "A"),
          .folder "nf" "T" [mkBoard "t" "T", mkBoard "d" "D"]] :
        List BoardListItem)[2]?) = none := by
  decide

/-- C4 witness input: target board `t` followed by dragged board `d`. -/
def mergeWitnessItems : List BoardListItem :=
  [.board (mkBoard "t" "T"), .board (mkBoard "d" "D")]

/-- C4 (witness): the amended theorem applied to `[t, d]`, dragging `d`
inside `t`; the new folder lands at index `min 0 0 = 0`. -/
theorem handleBoardDrop_root_merge_witness :
    ∃ out,
      handleBoardDrop mergeWitnessItems "d" .board "t" false .inside "nf" =
          some out ∧
        out[min (mergeWitnessItems.findIdx (isRootBoardWithId "t"))
            ((removeBoardFromItems "t"
              (removeBoardFromItems "d" mergeWitnessItems)).length)]? =
          some (.folder "nf" "T" [mkBoard "t" "T", mkBoard "d" "D"]) ∧
        ∀ (j : Nat) (it : BoardListItem),
          j ≠ min (mergeWitnessItems.findIdx (isRootBoardWithId "t"))
            ((removeBoardFromItems "t"
              (removeBoardFromItems "d" mergeWitnessItems)).length) →
          out[j]? = some it →
          "d" ∉ itemBoardIds it ∧ "t" ∉ itemBoardIds it :=
  handleBoardDrop_root_merge mergeWitnessItems "d" "t" "nf"
    (mkBoard "t" "T") (mkBoard "d" "D") (by decide) (by decide) (by decide)
    (by decide) (by decide)

/-! ### AutoSaveBridge (`ExcalidrawFrame`, `src/unnamed/part_006`)

One mounted canvas instance with a non-null active board.  `timer` is the
pending debounce deadline (`saveTimeoutRef`), `content` the serialization of
the canvas that `collectData` would capture, `lastSaved` the
`lastSavedDataRef` fingerprint, `writes` the number of `onDataChange`
persistence calls, `ready` the `isReady` flag.  Time is a discrete `Nat`
clock; a pending timer fires as soon as the clock reaches its deadline. -/

structure SaveState where
  timer : Option Nat
  content : String
  lastSaved : Option String
  writes : Nat
  ready : Bool
  deriving DecidableEq, Repr

/-- The fixed debounce delay (`1000` ms in `scheduleSave`). -/
def saveDelay : Nat := 1000

/-- `saveData`: persist only when the serialized snapshot differs from the
last persisted fingerprint. -/
def doSave (s : SaveState) : SaveState :=
  if s.lastSaved = some s.content then s
  else { s with lastSaved := some s.content, writes := s.writes + 1 }

/-- Run the pending timer callback if its deadline has been reached by time
`t` (capture the current content, compare, persist). -/
def fireIfDue (t : Nat) (s : SaveState) : SaveState :=
  match s.timer with
  | some d => if d ≤ t then doSave { s with timer := none } else s
  | none => s

/-- Events seen by the bridge: the canvas signalling readiness, a change
notification carrying the new serialized content, and a `flushSave` call. -/
inductive SaveEvent where
  | markReady (t : Nat)
  | change (t : Nat) (data : String)
  | flush (t : Nat)
  deriving DecidableEq, Repr

/-- One event step.  A change notification mutates the canvas content and —
only when `ready` — (re)starts the single debounce timer, cancelling any
prior one (`scheduleSave`).  `flushSave` cancels the pending timer and runs
the capture-compare-persist sequence immediately. -/
def stepSave (s : SaveState) : SaveEvent → SaveState
  | .markReady t =>
    let s1 := fireIfDue t s
    { s1 with ready := true }
  | .change t data =>
    let s1 := fireIfDue t s
    let s2 := { s1 with content := data }
    if s2.ready then { s2 with timer := some (t + saveDelay) } else s2
  | .flush t =>
    let s1 := fireIfDue t s
    doSave { s1 with timer := none }

def runSave (s : SaveState) (evs : List SaveEvent) : SaveState :=
  evs.foldl stepSave s

/-- Let any still-pending timer fire (waiting past its deadline). -/
def settleSave (s : SaveState) : SaveState :=
  match s.timer with
  | some _ => doSave { s with timer := none }
  | none => s

/-- State of a freshly mounted, initialized canvas showing content `c0`: no
pending timer, empty fingerprint cache, ready. -/
def readySave (c0 : String) : SaveState :=
  { timer := none, content := c0, lastSaved := none, writes := 0, ready := true }

def mkChange (p : Nat × String) : SaveEvent := .change p.1 p.2

theorem runSave_burst (l : List (Nat × String)) :
    ∀ (s : SaveState) (tp : Nat), s.ready = true →
      s.timer = some (tp + saveDelay) →
      List.Chain (fun a b => b.1 < a.1 + saveDelay) (tp, s.content) l →
      (runSave s (l.map mkChange)).writes = s.writes ∧
        (runSave s (l.map mkChange)).lastSaved = s.lastSaved ∧
        (runSave s (l.map mkChange)).timer.isSome = true := by
  induction l with
  | nil =>
    intro s tp hr ht _
    refine ⟨rfl, rfl, ?_⟩
    simp [runSave, ht]
  | cons hd rest ih =>
    intro s tp hr ht hchain
    obtain ⟨hlt, hchain'⟩ := List.chain_cons.mp hchain
    have hnodue : ¬ (tp + saveDelay ≤ hd.1) := Nat.not_le.mpr hlt
    have hstep : stepSave s (mkChange hd) =
        { s with content := hd.2, timer := some (hd.1 + saveDelay) } := by
      rcases s with ⟨timer, content, lastSaved, writes, ready⟩
      simp only [mkChange, stepSave, fireIfDue] at *
      rw [ht]
      simp only [hnodue, if_false]
      simp [hr]
    have := ih { s with content := hd.2, timer := some (hd.1 + saveDelay) }
      hd.1 hr rfl hchain'
    simpa [runSave, hstep] using this

theorem runSave_spaced (l : List (Nat × String)) :
    ∀ (s : SaveState) (tp : Nat), s.ready = true →
      s.timer = some (tp + saveDelay) →
      s.lastSaved ≠ some s.content →
      List.Chain (fun a b => a.1 + saveDelay < b.1 ∧ a.2 ≠ b.2)
        (tp, s.content) l →
      (settleSave (runSave s (l.map mkChange))).writes =
        s.writes + 1 + l.length := by
  induction l with
  | nil =>
    intro s tp hr ht hdiff _
    simp [runSave, settleSave, ht, doSave, hdiff]
  | cons hd rest ih =>
    intro s tp hr ht hdiff hchain
    obtain ⟨⟨hlt, hne⟩, hchain'⟩ := List.chain_cons.mp hchain
    have hdue : tp + saveDelay ≤ hd.1 := Nat.le_of_lt hlt
    have hstep : stepSave s (mkChange hd) =
        { s with
          content := hd.2
          timer := some (hd.1 + saveDelay)
          lastSaved := some s.content
          writes := s.writes + 1 } := by
      rcases s with ⟨timer, content, lastSaved, writes, ready⟩
      simp only at hdiff hne
      simp only [mkChange, stepSave, fireIfDue] at *
      rw [ht]
      simp only [hdue, if_true]
      simp [doSave, hdiff, hr]
    have := ih { s with
        content := hd.2
        timer := some (hd.1 + saveDelay)
        lastSaved := some s.content
        writes := s.writes + 1 }
      hd.1 hr rfl (by simpa using hne) hchain'
    rw [runSave, List.map_cons, List.foldl_cons, hstep]
    rw [runSave] at this
    rw [this]
    simp only [List.length_cons]
    omega

theorem flush_writes (s : SaveState) (t : Nat) :
    (stepSave s (.flush t)).writes =
      (if s.lastSaved = some s.content then s.writes else s.writes + 1) ∧
      (stepSave s (.flush t)).lastSaved = some s.content ∧
      (stepSave s (.flush t)).content = s.content := by
  rcases s with ⟨timer, content, lastSaved, writes, ready⟩
  cases timer with
  | none =>
    by_cases h : lastSaved = some content <;>
      simp [stepSave, fireIfDue, doSave, h]
  | some d =>
    by_cases hd : d ≤ t
    · by_cases h : lastSaved = some content <;>
        simp [stepSave, fireIfDue, doSave, h, hd]
    · by_cases h : lastSaved = some content <;>
        simp [stepSave, fireIfDue, doSave, h, hd]

/-- C6 (amended): (a) a change notification received while ready always
(re)starts the single 1000 ms debounce timer; (b) N ≥ 1 notifications fired
within one debounce window (each arriving before the previous timer fires)
produce exactly 1 persisted write once the timer fires; (c) N notifications
each separated by more than the delay, each carrying content that serializes
differently from the previous one, produce exactly N writes; (d) a flush
persists exactly once when an unsaved change is pending, and a second
consecutive flush with no intervening change adds no write. -/
theorem autoSave_debounce_dedupe :
    (∀ (s : SaveState) (t : Nat) (d : String), s.ready = true →
        (stepSave s (.change t d)).timer = some (t + saveDelay)) ∧
      (∀ (c0 d0 : String) (t0 : Nat) (l : List (Nat × String)),
        List.Chain (fun a b => b.1 < a.1 + saveDelay) (t0, d0) l →
        (settleSave (runSave (readySave c0)
          (((t0, d0) :: l).map mkChange))).writes = 1) ∧
      (∀ (c0 d0 : String) (t0 : Nat) (l : List (Nat × String)),
        List.Chain (fun a b => a.1 + saveDelay < b.1 ∧ a.2 ≠ b.2) (t0, d0) l →
        (settleSave (runSave (readySave c0)
          (((t0, d0) :: l).map mkChange))).writes = ((t0, d0) :: l).length) ∧
      (∀ (s : SaveState) (t t' : Nat),
        (stepSave (stepSave s (.flush t)) (.flush t')).writes =
            (stepSave s (.flush t)).writes ∧
          (s.lastSaved ≠ some s.content →
            (stepSave s (.flush t)).writes = s.writes + 1)) := by
  refine ⟨?_, ?_, ?_, ?_⟩
  · intro s t d hr
    rcases s with ⟨timer, content, lastSaved, writes, ready⟩
    cases timer with
    | none => simp only at hr; simp [stepSave, fireIfDue, hr]
    | some dl =>
      by_cases hd : dl ≤ t <;>
        (simp only at hr
         simp [stepSave, fireIfDue, doSave, hd, hr]
         try (split <;> simp))
  · intro c0 d0 t0 l hchain
    have hstep : stepSave (readySave c0) (mkChange (t0, d0)) =
        { timer := some (t0 + saveDelay), content := d0, lastSaved := none,
          writes := 0, ready := true } := by
      simp [stepSave, readySave, fireIfDue, mkChange]
    have hrun := runSave_burst l
      { timer := some (t0 + saveDelay), content := d0, lastSaved := none,
        writes := 0, ready := true } t0 rfl rfl hchain
    rw [List.map_cons, runSave, List.foldl_cons, hstep]
    rw [runSave] at hrun
    obtain ⟨hw, hls, hts⟩ := hrun
    rw [settleSave]
    rcases hsome : (List.foldl stepSave
        { timer := some (t0 + saveDelay), content := d0, lastSaved := none,
          writes := 0, ready := true } (l.map mkChange)).timer with _ | dl
    · rw [hsome] at hts; cases hts
    · rw [hsome] at hts
      rw [doSave]
      rw [hls]
      simp [hw]
  · intro c0 d0 t0 l hchain
    have hstep : stepSave (readySave c0) (mkChange (t0, d0)) =
        { timer := some (t0 + saveDelay), content := d0, lastSaved := none,
          writes := 0, ready := true } := by
      simp [stepSave, readySave, fireIfDue, mkChange]
    have hrun := runSave_spaced l
      { timer := some (t0 + saveDelay), content := d0, lastSaved := none,
        writes := 0, ready := true } t0 rfl rfl (by simp) hchain
    rw [List.map_cons, runSave, List.foldl_cons, hstep]
    rw [runSave] at hrun
    rw [hrun]
    simp only [List.length_cons]
    omega
  · intro s t t'
    obtain ⟨hw1, hls1, hc1⟩ := flush_writes s t
    obtain ⟨hw2, _, _⟩ := flush_writes (stepSave s (.flush t)) t'
    constructor
    · rw [hw2, hls1, hc1, if_pos rfl]
    · intro hdiff
      rw [hw1, if_neg hdiff]

/-- C6 (counterexample): two change notifications separated by more than the
debounce delay but carrying identical serialized content produce a single
write, not two — the fingerprint dedupe in `saveData` skips the second
persist, contradicting the claim's unconditional "N notifications each
separated by more than the delay produce N writes". -/
theorem autoSave_spaced_same_content_cex :
    0 + saveDelay < 2000 ∧
      (settleSave (runSave (readySave "init")
        ([((0 : Nat), "x"), (2000, "x")].map mkChange))).writes = 1 ∧
      ([((0 : Nat), "x"), (2000, "x")] : List (Nat × String)).length = 2 := by
  decide

/-- C6 (witness): the amended theorem at concrete schedules — a two-change
burst inside one window yields one write; two spaced distinct-content changes
yield two writes; a flush of an unsaved change writes once and a second
flush adds nothing. -/
theorem autoSave_debounce_dedupe_witness :
    (stepSave (readySave "c") (.change 5 "y")).timer = some (5 + saveDelay) ∧
      (settleSave (runSave (readySave "c")
        ([((0 : Nat), "a"), (500, "b")].map mkChange))).writes = 1 ∧
      (settleSave (runSave (readySave "c")
        ([((0 : Nat), "a"), (2000, "b")].map mkChange))).writes = 2 ∧
      (stepSave (stepSave (readySave "c") (.flush 3)) (.flush 9)).writes =
          (stepSave (readySave "c") (.flush 3)).writes ∧
      (stepSave (readySave "c") (.flush 3)).writes = 0 + 1 := by
  obtain ⟨h1, h2, h3, h4⟩ := autoSave_debounce_dedupe
  refine ⟨h1 (readySave "c") 5 "y" rfl, ?_, ?_, (h4 (readySave "c") 3 9).1,
    (h4 (readySave "c") 3 9).2 (by decide)⟩
  · exact h2 "c" "a" 0 [(500, "b")] (List.Chain.cons (by decide) List.Chain.nil)
  · exact h3 "c" "a" 0 [(2000, "b")] (List.Chain.cons (by decide) List.Chain.nil)

/-! ### Board-switch and export sequencing (`App.tsx`, `src/unnamed/part_001`)

`handleSelectBoard` and `handleExportBoards` are `async` handlers whose only
effects relevant here are the awaited calls they issue, in order.  They are
modelled as the sequence of those calls. -/

/-- The awaited external calls of the `App` handlers. -/
inductive AppAction where
  | flushSave
  | setActiveBoard (id : String)
  | saveDialog
  | exportAssemble
  deriving DecidableEq, Repr

/-- `handleSelectBoard`: bail out if the board is already active; otherwise
flush the mounted canvas (when one exists), then switch the active board. -/
def handleSelectBoardTrace (activeBoardId : Option String) (boardId : String)
    (canvasMounted : Bool) : List AppAction :=
  if some boardId = activeBoardId then []
  else (if canvasMounted then [.flushSave] else []) ++ [.setActiveBoard boardId]

/-- `handleExportBoards`: bail out while busy; ask for a target path; if one
was chosen, flush the mounted canvas (when one exists), then invoke the
backend bundle assembly (`export_boards`). -/
def handleExportBoardsTrace (busy : Bool) (chosenPath : Option String)
    (canvasMounted : Bool) : List AppAction :=
  if busy then []
  else match chosenPath with
    | none => [.saveDialog]
    | some _ =>
      [.saveDialog] ++ (if canvasMounted then [.flushSave] else []) ++
        [.exportAssemble]

/-- C7: with a mounted canvas, selecting a board different from the active
one awaits `flushSave` to completion strictly before `setActiveBoard`, and a
whole-collection export with a chosen target path awaits `flushSave` strictly
before the export bundle is assembled. -/
theorem flush_before_switch_and_export (activeBoardId : Option String)
    (boardId : String) (path : String)
    (hne : some boardId ≠ activeBoardId) :
    handleSelectBoardTrace activeBoardId boardId true =
        [AppAction.flushSave, .setActiveBoard boardId] ∧
      handleExportBoardsTrace false (some path) true =
        [AppAction.saveDialog, .flushSave, .exportAssemble] := by
  constructor
  · rw [handleSelectBoardTrace, if_neg hne]
    rfl
  · rfl

/-- C7 (witness): the sequencing theorem at a concrete board switch and
export. -/
theorem flush_before_switch_and_export_witness :
    handleSelectBoardTrace (some "old") "new" true =
        [AppAction.flushSave, .setActiveBoard "new"] ∧
      handleExportBoardsTrace false (some "/tmp/out.json") true =
        [AppAction.saveDialog, .flushSave, .exportAssemble] :=
  flush_before_switch_and_export (some "old") "new" "/tmp/out.json" (by decide)

/-! ### Decimal representations

`buildImportBoards` disambiguates selection keys by appending `-1`, `-2`, …
(JS template `${baseKey}-${suffix}`).  To reason about key uniqueness we need
that decimal rendering of naturals (`Nat.repr`) is injective. -/

/-- Decimal digits of `n`, most significant first: the list
`Nat.toDigitsCore` builds. -/
def reprAux (n : Nat) : List Char :=
  if h : n / 10 = 0 then [Nat.digitChar (n % 10)]
  else reprAux (n / 10) ++ [Nat.digitChar (n % 10)]
decreasing_by
  omega

theorem toDigitsCore_eq_reprAux :
    ∀ (fuel n : Nat) (ds : List Char), n < fuel →
      Nat.toDigitsCore 10 fuel n ds = reprAux n ++ ds := by
  intro fuel
  induction fuel with
  | zero => intro n ds h; omega
  | succ f ih =>
    intro n ds h
    rw [Nat.toDigitsCore]
    by_cases h0 : n / 10 = 0
    · rw [if_pos h0, reprAux, dif_pos h0]
      rfl
    · rw [if_neg h0]
      conv_rhs => rw [reprAux]
      rw [dif_neg h0, List.append_assoc]
      exact ih (n / 10) _ (by omega)

theorem repr_eq_reprAux (n : Nat) : Nat.repr n = (reprAux n).asString := by
  rw [Nat.repr, Nat.toDigits,
    toDigitsCore_eq_reprAux (n + 1) n [] (Nat.lt_succ_self n),
    List.append_nil]

/-- Numeric value of a decimal-digit character. -/
def digitVal (c : Char) : Nat := c.toNat - 48

/-- Value of a most-significant-first decimal digit list. -/
def digitsVal (l : List Char) : Nat :=
  l.foldl (fun a c => 10 * a + digitVal c) 0

theorem digitVal_digitChar : ∀ k, k < 10 → digitVal (Nat.digitChar k) = k := by
  decide

theorem digitsVal_append_singleton (l : List Char) (c : Char) :
    digitsVal (l ++ [c]) = 10 * digitsVal l + digitVal c := by
  rw [digitsVal, List.foldl_append]
  rfl

theorem digitsVal_reprAux (n : Nat) : digitsVal (reprAux n) = n := by
  induction n using Nat.strong_induction_on with
  | _ n ih =>
    rw [reprAux]
    by_cases h : n / 10 = 0
    · rw [dif_pos h]
      have h1 : digitsVal [Nat.digitChar (n % 10)] =
          10 * 0 + digitVal (Nat.digitChar (n % 10)) := rfl
      rw [h1, digitVal_digitChar (n % 10) (by omega)]
      omega
    · rw [dif_neg h, digitsVal_append_singleton, ih (n / 10) (by omega),
        digitVal_digitChar (n % 10) (by omega)]
      omega

theorem reprAux_injective : Function.Injective reprAux := by
  intro a b h
  rw [← digitsVal_reprAux a, ← digitsVal_reprAux b, h]

theorem string_data_injective {s t : String} (h : s.data = t.data) : s = t := by
  cases s
  cases t
  simp only at h
  rw [h]

theorem nat_repr_injective : Function.Injective Nat.repr := by
  intro a b h
  rw [repr_eq_reprAux, repr_eq_reprAux] at h
  apply reprAux_injective
  have h2 := congrArg String.data h
  simpa [List.asString] using h2

theorem reprAux_ne_nil (n : Nat) : reprAux n ≠ [] := by
  rw [reprAux]
  by_cases h : n / 10 = 0
  · rw [dif_pos h]; simp
  · rw [dif_neg h]; simp

theorem string_data_append (s t : String) : (s ++ t).data = s.data ++ t.data := by
  cases s
  cases t
  rfl

/-- The `suffix`-th candidate key the while loop of `buildImportBoards`
probes: the base key itself, then `base-1`, `base-2`, …. -/
def candidateKey (base : String) : Nat → String
  | 0 => base
  | n + 1 => base ++ "-" ++ Nat.repr (n + 1)

theorem candidateKey_succ_data (base : String) (n : Nat) :
    (candidateKey base (n + 1)).data =
      base.data ++ '-' :: (Nat.repr (n + 1)).data := by
  rw [candidateKey, string_data_append, string_data_append, List.append_assoc]
  rfl

theorem candidateKey_injective (base : String) :
    Function.Injective (candidateKey base) := by
  intro a b h
  match a, b with
  | 0, 0 => rfl
  | 0, n + 1 =>
    exfalso
    have hd := congrArg String.data h
    rw [candidateKey, candidateKey_succ_data] at hd
    have := congrArg List.length hd
    simp at this
  | m + 1, 0 =>
    exfalso
    have hd := congrArg String.data h
    rw [candidateKey, candidateKey_succ_data] at hd
    have := congrArg List.length hd
    simp at this
  | m + 1, n + 1 =>
    have hd := congrArg String.data h
    rw [candidateKey_succ_data, candidateKey_succ_data] at hd
    have h1 := List.append_cancel_left hd
    have h2 : (Nat.repr (m + 1)).data = (Nat.repr (n + 1)).data :=
      List.tail_eq_of_cons_eq h1
    have h3 := nat_repr_injective (string_data_injective h2)
    omega

theorem exists_fresh_candidate (seen : List String) (base : String) (n : Nat) :
    ∃ k, k ≤ seen.length ∧ candidateKey base (n + k) ∉ seen := by
  by_contra hcon
  push_neg at hcon
  have hinj : Function.Injective (fun k => candidateKey base (n + k)) := by
    intro a b hab
    have := candidateKey_injective base hab
    omega
  have hnd : ((List.range (seen.length + 1)).map
      (fun k => candidateKey base (n + k))).Nodup :=
    (List.nodup_range _).map hinj
  have hsub : ∀ x ∈ (List.range (seen.length + 1)).map
      (fun k => candidateKey base (n + k)), x ∈ seen := by
    intro x hx
    obtain ⟨k, hk, rfl⟩ := List.mem_map.mp hx
    exact hcon k (Nat.lt_succ_iff.mp (List.mem_range.mp hk))
  have hcard1 : ((List.range (seen.length + 1)).map
      (fun k => candidateKey base (n + k))).toFinset.card = seen.length + 1 := by
    rw [List.toFinset_card_of_nodup hnd, List.length_map, List.length_range]
  have hcard2 : ((List.range (seen.length + 1)).map
      (fun k => candidateKey base (n + k))).toFinset ⊆ seen.toFinset := by
    intro x hx
    rw [List.mem_toFinset] at *
    exact hsub x hx
  have h3 := Finset.card_le_card hcard2
  have h4 := List.toFinset_card_le seen
  omega

/-- The key-disambiguation `while` loop of `buildImportBoards`, probing
`candidateKey base 0, 1, 2, …` until one is not in `seen`.  The JS loop
always terminates because only finitely many keys are taken; here the fuel
`seen.length + 1` bounds the probes, which suffices by `exists_fresh_candidate`
since the candidates are pairwise distinct. -/
def loopKey (seen : List String) (base : String) : Nat → Nat → String
  | 0, n => candidateKey base n
  | fuel + 1, n =>
    if candidateKey base n ∈ seen then loopKey seen base fuel (n + 1)
    else candidateKey base n

/-- The selection key chosen for `base` against already-used keys `seen`. -/
def freshKey (seen : List String) (base : String) : String :=
  loopKey seen base (seen.length + 1) 0

theorem loopKey_spec (seen : List String) (base : String) :
    ∀ (fuel n : Nat),
      (∃ k, k ≤ fuel ∧ candidateKey base (n + k) ∉ seen) →
      ∃ k, loopKey seen base fuel n = candidateKey base (n + k) ∧
        candidateKey base (n + k) ∉ seen ∧
        ∀ j < k, candidateKey base (n + j) ∈ seen := by
  intro fuel
  induction fuel with
  | zero =>
    intro n ⟨k, hk, hfresh⟩
    have hk0 : k = 0 := Nat.le_zero.mp hk
    subst hk0
    exact ⟨0, rfl, hfresh, fun j hj => absurd hj (Nat.not_lt_zero j)⟩
  | succ fuel ih =>
    intro n ⟨k, hk, hfresh⟩
    by_cases h : candidateKey base n ∈ seen
    · have hkpos : k ≠ 0 := by
        rintro rfl
        exact hfresh h
      obtain ⟨k', hspec, hfresh', hleast'⟩ := ih (n + 1)
        ⟨k - 1, by omega, by
          rw [show n + 1 + (k - 1) = n + k by omega]
          exact hfresh⟩
      refine ⟨k' + 1, ?_, ?_, ?_⟩
      · rw [loopKey, if_pos h, hspec,
          show n + 1 + k' = n + (k' + 1) by omega]
      · rw [show n + (k' + 1) = n + 1 + k' by omega]
        exact hfresh'
      · intro j hj
        cases j with
        | zero => simpa using h
        | succ j' =>
          rw [show n + (j' + 1) = n + 1 + j' by omega]
          exact hleast' j' (by omega)
    · exact ⟨0, by rw [loopKey, if_neg h, Nat.add_zero], by simpa using h,
        fun j hj => absurd hj (Nat.not_lt_zero j)⟩

theorem freshKey_spec (seen : List String) (base : String) :
    ∃ k, freshKey seen base = candidateKey base k ∧
      candidateKey base k ∉ seen ∧
      ∀ j < k, candidateKey base j ∈ seen := by
  obtain ⟨k0, hk0, hfresh⟩ := exists_fresh_candidate seen base 0
  have hex : ∃ k, k ≤ seen.length + 1 ∧ candidateKey base (0 + k) ∉ seen :=
    ⟨k0, by omega, by simpa using hfresh⟩
  obtain ⟨k, hspec, hfresh', hleast⟩ := loopKey_spec seen base (seen.length + 1) 0 hex
  exact ⟨k, by simpa using hspec, by simpa using hfresh', fun j hj => by
    simpa using hleast j hj⟩

theorem freshKey_not_mem (seen : List String) (base : String) :
    freshKey seen base ∉ seen := by
  obtain ⟨k, hspec, hfresh, _⟩ := freshKey_spec seen base
  rw [hspec]
  exact hfresh

theorem freshKey_eq_base (seen : List String) (base : String)
    (h : base ∉ seen) : freshKey seen base = base := by
  have h0 : candidateKey base 0 ∉ seen := h
  rw [freshKey, loopKey, if_neg h0]
  rfl

/-- A raw entry of a parsed bundle's `boards` array, as far as the import
logic inspects it: the declared id (a JS-falsy id — absent, `null` or the
empty string — is `none` / `some ""`) and the declared name.  An array slot
that is `null` or whose `name` is not a string is modelled as `none` in the
surrounding list (such entries are skipped but still consume an index).  The
`data` payload is carried through untouched and omitted here. -/
structure RawBoardEntry where
  id : Option String
  name : String
  deriving DecidableEq, Repr

/-- A candidate entry produced by `buildImportBoards`: original declared id,
display name, de-duplicated selection key, and position in the bundle. -/
structure ImportBoardEntry where
  id : Option String
  name : String
  key : String
  index : Nat
  deriving DecidableEq, Repr

/-- `name.trim()`: strip leading and trailing whitespace (modelled directly
over the character list). -/
def trimStr (s : String) : String :=
  ⟨((s.data.dropWhile Char.isWhitespace).reverse.dropWhile
    Char.isWhitespace).reverse⟩

/-- The positional fallback key `import-{index+1}`. -/
def fallbackKey (index : Nat) : String := "import-" ++ Nat.repr (index + 1)

/-- `String(entry.id || 'import-{index+1}')`: the declared id when truthy,
else the positional key. -/
def baseKeyOf (id : Option String) (index : Nat) : String :=
  match id with
  | some s => if s = "" then fallbackKey index else s
  | none => fallbackKey index

/-- The `reduce` body of `buildImportBoards` (`BoardList.tsx` lines 712-735):
skip invalid entries, default the trimmed-empty name, and assign the first
candidate key not yet used. -/
def buildImportBoardsAux (seen : List String) (index : Nat) :
    List (Option RawBoardEntry) → List ImportBoardEntry
  | [] => []
  | none :: rest => buildImportBoardsAux seen (index + 1) rest
  | some e :: rest =>
    let name := if trimStr e.name = "" then "Untitled board" else trimStr e.name
    let key := freshKey seen (baseKeyOf e.id index)
    ⟨e.id, name, key, index⟩ :: buildImportBoardsAux (key :: seen) (index + 1) rest

/-- `buildImportBoards`: `none` payload means the parsed file has no `boards`
array (`!Array.isArray(payload.boards)`), which yields no entries. -/
def buildImportBoards (payload : Option (List (Option RawBoardEntry))) :
    List ImportBoardEntry :=
  match payload with
  | none => []
  | some boards => buildImportBoardsAux [] 0 boards

/-- Truthy declared ids of a list of entries, in order. -/
def truthyIds (entries : List ImportBoardEntry) : List String :=
  entries.filterMap fun e => match e.id with
    | some s => if s = "" then none else some s
    | none => none

/-- The default-selection builder of `handleOpenImport` (lines 759-769): an
entry is deselected iff it has a truthy declared id that is already in the
current collection or was declared by an earlier entry of the import set. -/
def defaultSelectionAux (existing : List String) (seenIds : List String) :
    List ImportBoardEntry → List (String × Bool)
  | [] => []
  | e :: rest =>
    match e.id with
    | some s =>
      if s = "" then (e.key, true) :: defaultSelectionAux existing seenIds rest
      else
        (e.key, !(decide (s ∈ existing) || decide (s ∈ seenIds))) ::
          defaultSelectionAux existing (s :: seenIds) rest
    | none => (e.key, true) :: defaultSelectionAux existing seenIds rest

def defaultSelection (existing : List String) (entries : List ImportBoardEntry) :
    List (String × Bool) :=
  defaultSelectionAux existing [] entries

/-- `filePath.split(/[\\/]/).pop() || 'Import file'`. -/
def fileNameOf (p : String) : String :=
  match (p.split fun c => c = '/' || c = '\\').getLast? with
  | some s => if s = "" then "Import file" else s
  | none => "Import file"

/-- The component state touched by `handleOpenImport`, plus the board index
(`indexItems`), which the handler never writes. -/
structure ImportUiState where
  importError : Option String
  importDialogOpen : Bool
  importBoards : List ImportBoardEntry
  importSelection : List (String × Bool)
  importSourceName : Option String
  importFilePath : Option String
  settingsOpen : Bool
  indexItems : List BoardListItem
  deriving DecidableEq, Repr

/-- `handleOpenImport` (`BoardList.tsx` lines 737-781).  `dialogResult` is the
file-picker outcome; `parsed` is `none` when reading/`JSON.parse` threw (the
`catch` branch) and otherwise carries the payload's `boards` array (or `none`
when the payload has no such array). -/
def handleOpenImport (st : ImportUiState) (existingIds : List String)
    (dialogResult : Option String)
    (parsed : Option (Option (List (Option RawBoardEntry)))) : ImportUiState :=
  let st0 := { st with importError := none }
  match dialogResult with
  | none => st0
  | some filePath =>
    match parsed with
    | none =>
      { st0 with
        importError := some "Import failed. Please check the file and try again." }
    | some payload =>
      let entries := buildImportBoards payload
      if entries.length = 0 then
        { st0 with importError := some "No boards found in the selected file." }
      else
        { st0 with
          importBoards := entries
          importSelection := defaultSelection existingIds entries
          importSourceName := some (fileNameOf filePath)
          importFilePath := some filePath
          settingsOpen := false
          importDialogOpen := true }

/-- C9: when the chosen file parses but yields no candidate entries (in
particular when it has no valid `boards` array, which always yields zero
entries), the import is rejected before any state mutation: the specific
"no boards found" message is surfaced and every other piece of state — the
selection dialog flag, the staged entries and selection, the board index —
is left exactly as it was. -/
theorem open_import_rejects_without_boards (st : ImportUiState)
    (existingIds : List String) (filePath : String)
    (payload : Option (List (Option RawBoardEntry)))
    (h : buildImportBoards payload = []) :
    handleOpenImport st existingIds (some filePath) (some payload) =
        { st with importError := some "No boards found in the selected file." } ∧
      (handleOpenImport st existingIds (some filePath)
        (some payload)).importDialogOpen = st.importDialogOpen ∧
      (handleOpenImport st existingIds (some filePath)
        (some payload)).indexItems = st.indexItems ∧
      (handleOpenImport st existingIds (some filePath)
        (some payload)).importBoards = st.importBoards ∧
      buildImportBoards (none : Option (List (Option RawBoardEntry))) = [] := by
  have hmain : handleOpenImport st existingIds (some filePath) (some payload) =
      { st with importError := some "No boards found in the selected file." } := by
    rw [handleOpenImport]
    simp [h, List.length_nil]
  exact ⟨hmain, by rw [hmain], by rw [hmain], by rw [hmain], rfl⟩

/-- C9 (witness): a concrete rejected import — a parsed file with no `boards`
array leaves a concrete state unchanged except for the error message. -/
theorem open_import_rejects_without_boards_witness :
    handleOpenImport
        { importError := none, importDialogOpen := false, importBoards := [],
          importSelection := [], importSourceName := none,
          importFilePath := none, settingsOpen := true,
          indexItems := [.board (mkBoard "w" "W")] }
        ["w"] (some "/tmp/in.json") (some none) =
      { importError := some "No boards found in the selected file.",
        importDialogOpen := false, importBoards := [], importSelection := [],
        importSourceName := none, importFilePath := none, settingsOpen := true,
        indexItems := [.board (mkBoard "w" "W")] } :=
  (open_import_rejects_without_boards
    { importError := none, importDialogOpen := false, importBoards := [],
      importSelection := [], importSourceName := none, importFilePath := none,
      settingsOpen := true, indexItems := [.board (mkBoard "w" "W")] }
    ["w"] "/tmp/in.json" none (by decide)).1

theorem buildImportBoardsAux_keys (boards : List (Option RawBoardEntry)) :
    ∀ (seen : List String) (index : Nat),
      ((buildImportBoardsAux seen index boards).map (fun e => e.key)).Nodup ∧
        ∀ e ∈ buildImportBoardsAux seen index boards, e.key ∉ seen := by
  induction boards with
  | nil =>
    intro seen index
    exact ⟨List.nodup_nil, by simp [buildImportBoardsAux]⟩
  | cons hd rest ih =>
    intro seen index
    cases hd with
    | none =>
      rw [buildImportBoardsAux]
      exact ih seen (index + 1)
    | some ent =>
      simp only [buildImportBoardsAux]
      obtain ⟨ihnd, ihseen⟩ :=
        ih (freshKey seen (baseKeyOf ent.id index) :: seen) (index + 1)
      constructor
      · rw [List.map_cons, List.nodup_cons]
        refine ⟨?_, ihnd⟩
        intro hmem
        obtain ⟨e', he', hke⟩ := List.mem_map.mp hmem
        exact (ihseen e' he') (hke ▸ List.mem_cons_self _ _)
      · intro e' he'
        rcases List.mem_cons.mp he' with rfl | h'
        · exact freshKey_not_mem seen _
        · exact fun hmem' => (ihseen e' h') (List.mem_cons_of_mem _ hmem')

theorem buildImportBoardsAux_key_spec (boards : List (Option RawBoardEntry)) :
    ∀ (seen : List String) (index : Nat) (pre : List ImportBoardEntry)
      (e : ImportBoardEntry) (post : List ImportBoardEntry),
      buildImportBoardsAux seen index boards = pre ++ e :: post →
      ∃ k, e.key = candidateKey (baseKeyOf e.id e.index) k ∧
        e.key ∉ seen ∧ e.key ∉ pre.map (fun x => x.key) ∧
        ∀ j < k, candidateKey (baseKeyOf e.id e.index) j ∈ seen ∨
          candidateKey (baseKeyOf e.id e.index) j ∈ pre.map (fun x => x.key) := by
  induction boards with
  | nil =>
    intro seen index pre e post h
    rw [buildImportBoardsAux] at h
    exact absurd h.symm (List.append_ne_nil_of_right_ne_nil pre (by simp))
  | cons hd rest ih =>
    intro seen index pre e post h
    cases hd with
    | none =>
      rw [buildImportBoardsAux] at h
      exact ih seen (index + 1) pre e post h
    | some ent =>
      simp only [buildImportBoardsAux] at h
      cases pre with
      | nil =>
        rw [List.nil_append] at h
        have he : e = ⟨ent.id,
            if trimStr ent.name = "" then "Untitled board" else trimStr ent.name,
            freshKey seen (baseKeyOf ent.id index), index⟩ :=
          (List.cons_eq_cons.mp h).1.symm
        obtain ⟨k, hspec, hfresh, hleast⟩ :=
          freshKey_spec seen (baseKeyOf ent.id index)
        refine ⟨k, ?_, ?_, by simp, fun j hj => Or.inl ?_⟩
        · rw [he]; exact hspec
        · rw [he, hspec]; exact hfresh
        · rw [he]; exact hleast j hj
      | cons p pre' =>
        rw [List.cons_append] at h
        have hp : p = ⟨ent.id,
            if trimStr ent.name = "" then "Untitled board" else trimStr ent.name,
            freshKey seen (baseKeyOf ent.id index), index⟩ :=
          (List.cons_eq_cons.mp h).1.symm
        have htail := (List.cons_eq_cons.mp h).2
        obtain ⟨k, h1, h2, h3, h4⟩ :=
          ih (freshKey seen (baseKeyOf ent.id index) :: seen) (index + 1)
            pre' e post htail
        refine ⟨k, h1, ?_, ?_, ?_⟩
        · exact fun hmem => h2 (List.mem_cons_of_mem _ hmem)
        · rw [List.map_cons]
          intro hmem
          rcases List.mem_cons.mp hmem with heq | hmem'
          · exact h2 (by rw [heq, hp]; exact List.mem_cons_self _ _)
          · exact h3 hmem'
        · intro j hj
          rcases h4 j hj with hmem | hmem
          · rcases List.mem_cons.mp hmem with heq | hmem'
            · refine Or.inr ?_
              rw [List.map_cons, hp]
              exact heq ▸ List.mem_cons_self _ _
            · exact Or.inl hmem'
          · exact Or.inr (by rw [List.map_cons]; exact List.mem_cons_of_mem _ hmem)

theorem defaultSelectionAux_getElem (existing : List String)
    (pre : List ImportBoardEntry) :
    ∀ (seenIds : List String) (e : ImportBoardEntry)
      (post : List ImportBoardEntry),
      (defaultSelectionAux existing seenIds (pre ++ e :: post))[pre.length]? =
        some (e.key, match e.id with
          | some s => if s = "" then true
              else !(decide (s ∈ existing) ||
                decide (s ∈ seenIds ∨ s ∈ truthyIds pre))
          | none => true) := by
  induction pre with
  | nil =>
    intro seenIds e post
    simp only [List.nil_append, List.length_nil]
    cases he : e.id with
    | none =>
      rw [defaultSelectionAux]
      simp only [he]
      exact List.getElem?_cons_zero
    | some s =>
      rw [defaultSelectionAux]
      simp only [he]
      by_cases hs : s = ""
      · rw [if_pos hs, if_pos hs]
        exact List.getElem?_cons_zero
      · rw [if_neg hs, if_neg hs]
        rw [List.getElem?_cons_zero]
        have hd : decide (s ∈ seenIds ∨ s ∈ truthyIds ([] : List ImportBoardEntry)) =
            decide (s ∈ seenIds) := by
          apply decide_eq_decide.mpr
          simp [truthyIds]
        rw [hd]
  | cons p pre' ih =>
    intro seenIds e post
    simp only [List.cons_append, List.length_cons]
    cases hp : p.id with
    | none =>
      have htr : truthyIds (p :: pre') = truthyIds pre' := by
        simp [truthyIds, hp]
      rw [defaultSelectionAux]
      simp only [hp]
      rw [List.getElem?_cons_succ, ih seenIds e post, htr]
    | some s =>
      by_cases hs : s = ""
      · have htr : truthyIds (p :: pre') = truthyIds pre' := by
          simp [truthyIds, hp, hs]
        rw [defaultSelectionAux]
        simp only [hp]
        rw [if_pos hs, List.getElem?_cons_succ, ih seenIds e post, htr]
      · have htr : truthyIds (p :: pre') = s :: truthyIds pre' := by
          simp [truthyIds, hp, hs]
        rw [defaultSelectionAux]
        simp only [hp]
        rw [if_neg hs, List.getElem?_cons_succ, ih (s :: seenIds) e post,
          htr]
        cases hei : e.id with
        | none => rfl
        | some t =>
          simp only [hei]
          by_cases ht : t = ""
          · rw [if_pos ht, if_pos ht]
          · rw [if_neg ht, if_neg ht]
            have hd : decide (t ∈ s :: seenIds ∨ t ∈ truthyIds pre') =
                decide (t ∈ seenIds ∨ t ∈ s :: truthyIds pre') := by
              apply decide_eq_decide.mpr
              simp only [List.mem_cons]
              tauto
            rw [hd]

/-- C8: (a) the selection keys assigned by `buildImportBoards` are pairwise
distinct; (b) each entry's key is a candidate derived from its declared id —
falling back to the positional key `import-{index+1}` when the id is absent
(or empty, which JS treats as absent) — with the numeric suffix chosen as the
first one not colliding with any earlier entry's key; (c) the default
selection pairs each entry's key with `true` exactly when the entry does not
carry a (truthy) declared id that already exists in the current collection or
equals the declared id of an earlier entry of the import set. -/
theorem import_keys_and_default_selection :
    (∀ payload : Option (List (Option RawBoardEntry)),
        ((buildImportBoards payload).map (fun e => e.key)).Nodup) ∧
      (∀ (payload : Option (List (Option RawBoardEntry)))
          (pre : List ImportBoardEntry) (e : ImportBoardEntry)
          (post : List ImportBoardEntry),
        buildImportBoards payload = pre ++ e :: post →
        ∃ k, e.key = candidateKey (baseKeyOf e.id e.index) k ∧
          e.key ∉ pre.map (fun x => x.key) ∧
          ∀ j < k, candidateKey (baseKeyOf e.id e.index) j ∈
            pre.map (fun x => x.key)) ∧
      (∀ (existing : List String) (pre : List ImportBoardEntry)
          (e : ImportBoardEntry) (post : List ImportBoardEntry),
        ∃ b : Bool,
          (defaultSelection existing (pre ++ e :: post))[pre.length]? =
              some (e.key, b) ∧
            (b = true ↔ ∀ s, e.id = some s → s ≠ "" →
              s ∉ existing ∧ s ∉ truthyIds pre)) := by
  refine ⟨?_, ?_, ?_⟩
  · intro payload
    cases payload with
    | none => exact List.nodup_nil
    | some boards => exact (buildImportBoardsAux_keys boards [] 0).1
  · intro payload pre e post h
    cases payload with
    | none =>
      rw [buildImportBoards] at h
      exact absurd h.symm (List.append_ne_nil_of_right_ne_nil pre (by simp))
    | some boards =>
      rw [buildImportBoards] at h
      obtain ⟨k, h1, _, h3, h4⟩ :=
        buildImportBoardsAux_key_spec boards [] 0 pre e post h
      refine ⟨k, h1, h3, fun j hj => ?_⟩
      rcases h4 j hj with hmem | hmem
      · cases hmem
      · exact hmem
  · intro existing pre e post
    refine ⟨_, defaultSelectionAux_getElem existing pre [] e post, ?_⟩
    cases he : e.id with
    | none => simp
    | some s =>
      by_cases hs : s = ""
      · subst hs
        simp
      · simp only [if_neg hs, Bool.not_eq_eq_eq_not, Bool.not_true,
          Bool.or_eq_false_iff, decide_eq_false_iff_not]
        constructor
        · rintro ⟨h1, h2⟩ s' hs' _
          cases Option.some_inj.mp hs'
          rw [List.mem_nil_iff, false_or] at h2  -- hmm placeholder
          exact ⟨h1, h2⟩
        · intro hall
          obtain ⟨h1, h2⟩ := hall s rfl hs
          refine ⟨h1, ?_⟩
          simp [h2]

/-- C8 witness payload: two entries declaring the same id `b1`, then one with
no id. -/
def impPayload : Option (List (Option RawBoardEntry)) :=
  some [some ⟨some "b1", "One"⟩, some ⟨some "b1", "Two"⟩, some ⟨none, "Three"⟩]

def impE0 : ImportBoardEntry := ⟨some "b1", "One", "b1", 0⟩

def impE1 : ImportBoardEntry := ⟨some "b1", "Two", "b1-1", 1⟩

def impE2 : ImportBoardEntry := ⟨none, "Three", "import-3", 2⟩

/-- C8 (witness): on the concrete payload the keys come out as `b1`, `b1-1`
(suffixed on collision) and `import-3` (positional fallback), pairwise
distinct; the suffixed key of the second entry satisfies the first-free-
candidate characterization, and its default selection against a collection
already holding `b1` exists with the stated equivalence. -/
theorem import_keys_and_default_selection_witness :
    buildImportBoards impPayload = [impE0, impE1, impE2] ∧
      ((buildImportBoards impPayload).map (fun e => e.key)).Nodup ∧
      (∃ k, impE1.key = candidateKey (baseKeyOf impE1.id impE1.index) k ∧
        impE1.key ∉ [impE0].map (fun x => x.key) ∧
        ∀ j < k, candidateKey (baseKeyOf impE1.id impE1.index) j ∈
          [impE0].map (fun x => x.key)) ∧
      (∃ b : Bool,
        (defaultSelection ["b1"] ([impE0] ++ impE1 :: [impE2]))[
            ([impE0] : List ImportBoardEntry).length]? = some (impE1.key, b) ∧
          (b = true ↔ ∀ s, impE1.id = some s → s ≠ "" →
            s ∉ ["b1"] ∧ s ∉ truthyIds [impE0])) := by
  obtain ⟨h1, h2, h3⟩ := import_keys_and_default_selection
  exact ⟨by decide, h1 impPayload,
    h2 impPayload [impE0] impE1 [impE2] (by decide),
    h3 ["b1"] [impE0] impE1 [impE2]⟩

end ExcaStone
